import Mathlib

/-!
Verification of the source-tracking flow-accumulation algorithm of
SourceTrackingAlgorithm.py: the Arc flow-direction decoder
(convert_arc_flow_directions_to_landlab_node_ids), the elevation-ordered
source-routing traversal (track_source) and the unique-upstream-id
aggregation (find_unique_upstream_hsd_ids_and_fractions).

The Python functions are embedded as executable Lean functions.  The
receiver-chain walk inside track_source is a `while True` loop in the
source, so it is embedded with an explicit fuel parameter: `none` means
the fuel was exhausted before the loop reached one of its `break`
statements, and the source itself contains no cycle detection.
-/

namespace SourceTracking

/-- Modelled from the spec: the grid collaborator (its implementation is
absent from the sources) provides, per node, the four orthogonal
neighbors in the native order (east, north, west, south), the four
diagonal neighbors in the native order (northeast, northwest,
southwest, southeast), the list of core nodes, and the topographic
elevation field (grid.at_node topographic__elevation). -/
structure Grid where
  number_of_nodes : Nat
  core_nodes : List Nat
  neighbors_at_node : Nat → List Int
  diagonals_at_node : Nat → List Int
  elevation : Nat → ℚ

/-- The clockwise-from-east neighbor list [E, SE, S, SW, W, NW, N, NE]
built by the decoder: both native orderings are reversed (np.fliplr) and
the reversed columns are interleaved in the order
a_n[-1], a_d[0], a_n[0], a_d[1], a_n[1], a_d[2], a_n[2], a_d[3]
(np.hsplit followed by np.hstack). -/
def cw_neighbors (neigh diag : List Int) : List Int :=
  [neigh.reverse.getD 3 0, diag.reverse.getD 0 0, neigh.reverse.getD 0 0,
   diag.reverse.getD 1 0, neigh.reverse.getD 1 0, diag.reverse.getD 2 0,
   neigh.reverse.getD 2 0, diag.reverse.getD 3 0]

/-- Fuel-driven computation of the truncated base-2 logarithm; with fuel
at least the argument it agrees with Nat.log2. -/
def floor_log2_go : Nat → Nat → Nat
  | 0, _ => 0
  | fuel + 1, m => if 2 ≤ m then floor_log2_go fuel (m / 2) + 1 else 0

/-- The truncated (floored) base-2 logarithm, i.e. what np.log2 followed
by astype int computes on a positive integer code. -/
def floor_log2 (n : Nat) : Nat := floor_log2_go n n

/-- Embedding of convert_arc_flow_directions_to_landlab_node_ids: the Arc
code is sent through a base-2 logarithm truncated to an integer
(np.log2 followed by astype int) and the receiver of every core node is
the clockwise neighbor at that index (np.choose); non-core nodes keep
receiver 0 (np.zeros).  The embedding is faithful only for decoded
indices 0..7, i.e. codes 1..255: outside that range np.choose (default
mode raise) raises a ValueError, an error path the getD default does not
model, so theorems about this definition keep their codes in 1..255. -/
def convert_arc_flow_directions_to_landlab_node_ids
    (g : Grid) (flow_dir_arc : Nat → Nat) : Nat → Int :=
  fun nd =>
    if nd ∈ g.core_nodes then
      (cw_neighbors (g.neighbors_at_node nd) (g.diagonals_at_node nd)).getD
        (floor_log2 (flow_dir_arc nd)) 0
    else 0

/-- The mutable state of track_source: the list of already counted nodes,
the flow-accumulation array (np.zeros over all nodes, hence a total
function defaulting to 0) and the hsd_upstr dictionary (`none` for a
node with no entry). -/
structure TSState (α : Type) where
  alr_counted : List Nat
  flow_accum : Nat → Nat
  hsd_upstr : Nat → Option (List α)

/-- Pointwise update of an array/dictionary embedded as a function. -/
def upd {β : Type} (f : Nat → β) (k : Nat) (v : β) : Nat → β :=
  fun n => if n = k then v else f n

/-- Length of a dictionary entry, 0 when the entry is absent. -/
def optLen {α : Type} : Option (List α) → Nat
  | none => 0
  | some l => l.length

/-- One processed node of the stream-segment walk (the body of the
`while True` loop after the advance step): on a first visit
(flow_accum[j] == 0) the counter a is incremented, j is appended to
alr_counted and hsd_ids[j] to the stream buffer; then flow_accum[j] += a
and the (possibly fresh) hsd_upstr[j] entry is extended by a copy of the
buffer.  Returns the new counter, buffer and state. -/
def seg_step {α : Type} (hsd_ids : Nat → α) (j a : Nat) (buf : List α)
    (st : TSState α) : Nat × List α × TSState α :=
  if st.flow_accum j = 0 then
    (a + 1, buf ++ [hsd_ids j],
      ⟨st.alr_counted ++ [j],
       upd st.flow_accum j (st.flow_accum j + (a + 1)),
       upd st.hsd_upstr j (some ((st.hsd_upstr j).getD [] ++ (buf ++ [hsd_ids j])))⟩)
  else
    (a, buf,
      ⟨st.alr_counted,
       upd st.flow_accum j (st.flow_accum j + a),
       upd st.hsd_upstr j (some ((st.hsd_upstr j).getD [] ++ buf))⟩)

/-- The `while True` segment walk of track_source, with fuel.  On every
round after the first (switch_i false) the walker advances to r[j] and
breaks if the new node is not a core node; then the node is processed by
seg_step and the walk breaks when the node is its own receiver. -/
def seg_loop {α : Type} (core : List Nat) (r : Nat → Nat) (hsd_ids : Nat → α) :
    Nat → Nat → Bool → Nat → List α → TSState α → Option (TSState α)
  | 0, _, _, _, _, _ => none
  | fuel + 1, j0, switch_i, a, buf, st =>
    let j := if switch_i then j0 else r j0
    if switch_i = false ∧ j ∉ core then some st
    else
      let p := seg_step hsd_ids j a buf st
      if r j = j then some p.2.2
      else seg_loop core r hsd_ids fuel j false p.1 p.2.1 p.2.2

/-- The outer loop of track_source over the elevation-sorted core nodes:
already counted nodes are skipped, an unvisited sink is recorded directly
(hsd_upstr[i] = [hsd_ids[i]], flow_accum[i] += 1), and every other node
starts a stream-segment walk with an empty buffer and a = 0. -/
def track_source_loop {α : Type} (core : List Nat) (r : Nat → Nat)
    (hsd_ids : Nat → α) (fuel : Nat) :
    List Nat → TSState α → Option (TSState α)
  | [], st => some st
  | i :: rest, st =>
    if i ∈ st.alr_counted then track_source_loop core r hsd_ids fuel rest st
    else if r i = i then
      track_source_loop core r hsd_ids fuel rest
        ⟨st.alr_counted ++ [i],
         upd st.flow_accum i (st.flow_accum i + 1),
         upd st.hsd_upstr i (some [hsd_ids i])⟩
    else
      match seg_loop core r hsd_ids fuel i true 0 [] st with
      | none => none
      | some st' => track_source_loop core r hsd_ids fuel rest st'

/-- Insertion of a node into a descending-elevation list: the node is
placed before the first strictly lower node. -/
def insert_desc (z : Nat → ℚ) (x : Nat) : List Nat → List Nat
  | [] => [x]
  | y :: ys => if z y < z x then x :: y :: ys else y :: insert_desc z x ys

/-- The descending-elevation processing order of the core nodes
(core_nodes[np.argsort(core_elev)[::-1]]). -/
def sort_desc (z : Nat → ℚ) : List Nat → List Nat
  | [] => []
  | x :: xs => insert_desc z x (sort_desc z xs)

/-- The fresh state at entry of track_source: empty visited list, all-zero
flow accumulation, empty hsd_upstr dictionary. -/
def init_state (α : Type) : TSState α := ⟨[], fun _ => 0, fun _ => none⟩

/-- Embedding of track_source: the core nodes are processed in descending
elevation order starting from the fresh state.  The fuel bounds the
inner receiver-chain walk; `none` reports fuel exhaustion. -/
def track_source {α : Type} (g : Grid) (r : Nat → Nat) (hsd_ids : Nat → α)
    (fuel : Nat) : Option (TSState α) :=
  track_source_loop g.core_nodes r hsd_ids fuel
    (sort_desc g.elevation g.core_nodes) (init_state α)

/-- Flow accumulation of a node of an optional result (0 when absent). -/
def fa_of {α : Type} (o : Option (TSState α)) (n : Nat) : Nat :=
  o.elim 0 fun st => st.flow_accum n

/-- hsd_upstr entry of a node of an optional result. -/
def upstr_of {α : Type} (o : Option (TSState α)) (n : Nat) : Option (List α) :=
  o.elim none fun st => st.hsd_upstr n

/-- One increment of the insertion-ordered counter (collections.Counter
with the insertion order of a Python dict): an existing key keeps its
position, a new key is appended at the end with count 1. -/
def bump {α : Type} [DecidableEq α] : List (α × Nat) → α → List (α × Nat)
  | [], x => [(x, 1)]
  | (y, n) :: rest, x =>
    if y = x then (y, n + 1) :: rest else (y, n) :: bump rest x

/-- The counter of a list: cnt[num] += 1 over the list, left to right. -/
def counter_of {α : Type} [DecidableEq α] (l : List α) : List (α × Nat) :=
  l.foldl bump []

/-- The per-node body of find_unique_upstream_hsd_ids_and_fractions: the
unique upstream ids are the counter keys, and each coefficient is that
key's count divided by the sum of all counts. -/
def aggregate_node {α : Type} [DecidableEq α] (l : List α) :
    List α × List ℚ :=
  let cnt := counter_of l
  let buf := cnt.map Prod.snd
  (cnt.map Prod.fst, buf.map fun s : Nat => (s : ℚ) / (buf.sum : ℚ))

/-- Embedding of find_unique_upstream_hsd_ids_and_fractions over the
hsd_upstr dictionary represented as an association list: the two result
dictionaries (uniq_ids and coeff) share the input's keys. -/
def find_unique_upstream_hsd_ids_and_fractions {α : Type} [DecidableEq α]
    (hsd_upstr : List (Nat × List α)) :
    List (Nat × List α) × List (Nat × List ℚ) :=
  (hsd_upstr.map fun p => (p.1, (aggregate_node p.2).1),
   hsd_upstr.map fun p => (p.1, (aggregate_node p.2).2))

/-- Modelled from the spec: the distinct identifiers of a list in
first-encountered order. -/
def spec_first_encountered_order {α : Type} [DecidableEq α] (l : List α) :
    List α :=
  l.foldl (fun acc x => if x ∈ acc then acc else acc ++ [x]) []

/-- First-match value of an association-list counter, 0 for a missing
key. -/
def cnt_val {α : Type} [DecidableEq α] : List (α × Nat) → α → Nat
  | [], _ => 0
  | (y, n) :: rest, x => if y = x then n else cnt_val rest x

/-- The worked scenario of the spec: core nodes 1..4 with elevations
10, 9, 5, 1 on a six-node grid. -/
def c1_grid : Grid :=
  ⟨6, [1, 2, 3, 4], fun _ => [], fun _ => [],
   fun n => if n = 1 then 10 else if n = 2 then 9 else
     if n = 3 then 5 else if n = 4 then 1 else 0⟩

/-- The worked scenario's receivers r = (1:3, 2:3, 3:4, 4:4). -/
def c1_r : Nat → Nat :=
  fun n => if n = 1 then 3 else if n = 2 then 3 else
    if n = 3 then 4 else if n = 4 then 4 else n

/-- The worked scenario's HSD identifiers (1:A, 2:B, 3:C, 4:D). -/
def c1_hsd : Nat → Char :=
  fun n => if n = 1 then 'A' else if n = 2 then 'B' else
    if n = 3 then 'C' else if n = 4 then 'D' else 'Z'

/-- A two-core-node grid for the isolated-sink scenario: nodes 5 and 6,
each its own receiver. -/
def c5_grid : Grid :=
  ⟨2, [5, 6], fun _ => [], fun _ => [], fun n => if n = 5 then 2 else 1⟩

/-- Identity receivers: both nodes of c5_grid are sinks. -/
def c5_r : Nat → Nat := fun n => n

/-- HSD identifiers for the isolated-sink scenario. -/
def c5_hsd : Nat → Char := fun n => if n = 5 then 'X' else 'Y'

/-- A two-core-node grid whose receiver map is a mutual cycle. -/
def cyc_grid : Grid :=
  ⟨2, [0, 1], fun _ => [], fun _ => [], fun n => if n = 0 then 1 else 0⟩

/-- The cyclic receiver map r(0) = 1, r(1) = 0. -/
def cyc_r : Nat → Nat := fun n => if n = 0 then 1 else if n = 1 then 0 else n

/-- HSD identifiers for the cyclic scenario. -/
def cyc_hsd : Nat → Char := fun _ => 'X'

/-- A grid with one core node (node 4) whose eight neighbors are all
defined: orthogonal (E, N, W, S) = (10, 11, 12, 13) and diagonal
(NE, NW, SW, SE) = (20, 21, 22, 23). -/
def c7_grid : Grid :=
  ⟨9, [4], fun _ => [10, 11, 12, 13], fun _ => [20, 21, 22, 23], fun _ => 0⟩

/-- The master invariant of the traversal state: flow_accum equals the
length of the hsd_upstr entry at every node, membership in alr_counted
is equivalent to positive flow accumulation, and no recorded entry is
the empty list. -/
def MInv {α : Type} (st : TSState α) : Prop :=
  (∀ n, st.flow_accum n = optLen (st.hsd_upstr n)) ∧
  (∀ n, n ∈ st.alr_counted ↔ 0 < st.flow_accum n) ∧
  (∀ n, st.hsd_upstr n ≠ some [])

/-- A sink node not yet reached by the traversal. -/
def sink_pending {α : Type} (n : Nat) (st : TSState α) : Prop :=
  st.flow_accum n = 0 ∧ st.hsd_upstr n = none ∧ n ∉ st.alr_counted

/-- A sink node already recorded by Check 2 of track_source. -/
def sink_done {α : Type} (hsd_ids : Nat → α) (n : Nat) (st : TSState α) : Prop :=
  st.flow_accum n = 1 ∧ st.hsd_upstr n = some [hsd_ids n] ∧ n ∈ st.alr_counted

/-! ### Helper lemmas about the truncated logarithm -/

theorem floor_log2_go_eq_log2 :
    ∀ fuel m, m ≤ fuel → floor_log2_go fuel m = Nat.log2 m := by
  intro fuel
  induction fuel with
  | zero =>
    intro m hm
    have hm0 : m = 0 := Nat.le_zero.mp hm
    subst hm0
    rw [floor_log2_go]
    conv_rhs => rw [Nat.log2]
    simp
  | succ f ih =>
    intro m hm
    rw [floor_log2_go]
    conv_rhs => rw [Nat.log2]
    by_cases h : 2 ≤ m
    · have hlt : m / 2 < m := Nat.div_lt_self (by omega) (by omega)
      have hle : m / 2 ≤ f := by omega
      simp [h, ih _ hle]
    · simp [h]

theorem floor_log2_eq_log2 (n : Nat) : floor_log2 n = Nat.log2 n :=
  floor_log2_go_eq_log2 n n le_rfl

theorem floor_log2_two_pow (k : Nat) : floor_log2 (2 ^ k) = k := by
  rw [floor_log2_eq_log2]
  exact Nat.log2_two_pow

/-- C1: on the worked scenario (core nodes 1..4, elevations 10, 9, 5, 1,
receivers 1:3, 2:3, 3:4, 4:4, HSD ids A, B, C, D), track_source returns
hsd_upstr = (1:[A], 2:[B], 3:[A,C,B], 4:[A,C,D,B]) and
flow_accum = (1:1, 2:1, 3:3, 4:4), and
find_unique_upstream_hsd_ids_and_fractions then yields at node 4 the
unique ids A, C, D, B each with fraction 1/4 and at node 3 the unique
ids A, C, B each with fraction 1/3. -/
theorem C1_worked_scenario :
    (track_source c1_grid c1_r c1_hsd 16).isSome = true ∧
    upstr_of (track_source c1_grid c1_r c1_hsd 16) 1 = some ['A'] ∧
    upstr_of (track_source c1_grid c1_r c1_hsd 16) 2 = some ['B'] ∧
    upstr_of (track_source c1_grid c1_r c1_hsd 16) 3 = some ['A', 'C', 'B'] ∧
    upstr_of (track_source c1_grid c1_r c1_hsd 16) 4 = some ['A', 'C', 'D', 'B'] ∧
    fa_of (track_source c1_grid c1_r c1_hsd 16) 1 = 1 ∧
    fa_of (track_source c1_grid c1_r c1_hsd 16) 2 = 1 ∧
    fa_of (track_source c1_grid c1_r c1_hsd 16) 3 = 3 ∧
    fa_of (track_source c1_grid c1_r c1_hsd 16) 4 = 4 ∧
    find_unique_upstream_hsd_ids_and_fractions
        [(1, ['A']), (2, ['B']), (3, ['A', 'C', 'B']), (4, ['A', 'C', 'D', 'B'])] =
      ([(1, ['A']), (2, ['B']), (3, ['A', 'C', 'B']), (4, ['A', 'C', 'D', 'B'])],
       [(1, [1]), (2, [1]), (3, [1/3, 1/3, 1/3]), (4, [1/4, 1/4, 1/4, 1/4])]) := by
  refine ⟨by decide, by decide, by decide, by decide, by decide,
    by decide, by decide, by decide, by decide, ?_⟩
  simp only [find_unique_upstream_hsd_ids_and_fractions, aggregate_node, counter_of, bump,
    List.foldl, List.map]
  norm_num

/-! ### Lemmas about pointwise updates and entry lengths -/

theorem upd_same {β : Type} (f : Nat → β) (k : Nat) (v : β) : upd f k v k = v := by
  simp [upd]

theorem upd_other {β : Type} (f : Nat → β) (k : Nat) (v : β) (n : Nat) (h : n ≠ k) :
    upd f k v n = f n := by
  simp [upd, h]

theorem optLen_zero_of_ne_nil {α : Type} (o : Option (List α)) (hne : o ≠ some [])
    (h : optLen o = 0) : o = none := by
  cases o with
  | none => rfl
  | some l =>
    cases l with
    | nil => exact absurd rfl hne
    | cons x xs => simp [optLen] at h

/-! ### Lemmas about one processed node of the segment walk -/

theorem seg_step_minv {α : Type} (hsd_ids : Nat → α) (j a : Nat) (buf : List α)
    (st : TSState α) (hinv : MInv st) (ha : a = buf.length)
    (hbuf : st.flow_accum j = 0 ∨ buf ≠ []) :
    MInv (seg_step hsd_ids j a buf st).2.2 ∧
    (seg_step hsd_ids j a buf st).1 = (seg_step hsd_ids j a buf st).2.1.length ∧
    (seg_step hsd_ids j a buf st).2.1 ≠ [] := by
  obtain ⟨h1, h2, h3⟩ := hinv
  by_cases hj : st.flow_accum j = 0
  · have hupj : st.hsd_upstr j = none := by
      refine optLen_zero_of_ne_nil _ (h3 j) ?_
      rw [← h1 j, hj]
    refine ⟨⟨?_, ?_, ?_⟩, ?_, ?_⟩
    · intro n
      by_cases hn : n = j
      · subst hn
        simp [seg_step, hj, upd, hupj, optLen, ha]
      · simp only [seg_step, if_pos hj]
        rw [upd_other _ _ _ _ hn, upd_other _ _ _ _ hn]
        exact h1 n
    · intro n
      by_cases hn : n = j
      · subst hn
        simp [seg_step, hj, upd]
      · simp only [seg_step, if_pos hj]
        rw [upd_other _ _ _ _ hn]
        simp only [List.mem_append, List.mem_singleton]
        constructor
        · rintro (h | h)
          · exact (h2 n).mp h
          · exact absurd h hn
        · intro h
          exact Or.inl ((h2 n).mpr h)
    · intro n
      by_cases hn : n = j
      · subst hn
        simp [seg_step, hj, upd, hupj]
      · simp only [seg_step, if_pos hj]
        rw [upd_other _ _ _ _ hn]
        exact h3 n
    · simp [seg_step, hj, ha]
    · simp [seg_step, hj]
  · have hfa : 0 < st.flow_accum j := Nat.pos_of_ne_zero hj
    obtain ⟨l, hl⟩ : ∃ l, st.hsd_upstr j = some l := by
      cases hu : st.hsd_upstr j with
      | none =>
        have := h1 j
        rw [hu] at this
        simp [optLen] at this
        exact absurd this hj
      | some l => exact ⟨l, rfl⟩
    have hlen : st.flow_accum j = l.length := by
      have := h1 j
      rw [hl] at this
      simpa [optLen] using this
    have hbne : buf ≠ [] := hbuf.resolve_left hj
    refine ⟨⟨?_, ?_, ?_⟩, ?_, ?_⟩
    · intro n
      by_cases hn : n = j
      · subst hn
        simp only [seg_step, if_neg hj]
        rw [upd_same, upd_same, hl]
        simp [optLen, ha, hlen]
      · simp only [seg_step, if_neg hj]
        rw [upd_other _ _ _ _ hn, upd_other _ _ _ _ hn]
        exact h1 n
    · intro n
      by_cases hn : n = j
      · subst hn
        simp only [seg_step, if_neg hj]
        rw [upd_same]
        constructor
        · intro _
          omega
        · intro _
          exact (h2 n).mpr hfa
      · simp only [seg_step, if_neg hj]
        rw [upd_other _ _ _ _ hn]
        exact h2 n
    · intro n
      by_cases hn : n = j
      · subst hn
        simp only [seg_step, if_neg hj]
        rw [upd_same]
        simp [hbne]
      · simp only [seg_step, if_neg hj]
        rw [upd_other _ _ _ _ hn]
        exact h3 n
    · simp [seg_step, hj, ha]
    · simp [seg_step, hj, hbne]

theorem seg_step_fa_mono {α : Type} (hsd_ids : Nat → α) (j a : Nat) (buf : List α)
    (st : TSState α) (n : Nat) :
    st.flow_accum n ≤ (seg_step hsd_ids j a buf st).2.2.flow_accum n := by
  by_cases hj : st.flow_accum j = 0
  · by_cases hn : n = j
    · subst hn
      simp [seg_step, hj, upd]
    · simp only [seg_step, if_pos hj]
      rw [upd_other _ _ _ _ hn]
  · by_cases hn : n = j
    · subst hn
      simp only [seg_step, if_neg hj]
      rw [upd_same]
      omega
    · simp only [seg_step, if_neg hj]
      rw [upd_other _ _ _ _ hn]

theorem seg_step_fa_pos {α : Type} (hsd_ids : Nat → α) (j a : Nat) (buf : List α)
    (st : TSState α) :
    0 < (seg_step hsd_ids j a buf st).2.2.flow_accum j := by
  by_cases hj : st.flow_accum j = 0
  · simp [seg_step, hj, upd]
  · simp only [seg_step, if_neg hj]
    rw [upd_same]
    have := Nat.pos_of_ne_zero hj
    omega

theorem seg_step_frame {α : Type} (hsd_ids : Nat → α) (j a : Nat) (buf : List α)
    (st : TSState α) (n : Nat) (hn : n ≠ j) :
    (seg_step hsd_ids j a buf st).2.2.flow_accum n = st.flow_accum n ∧
    (seg_step hsd_ids j a buf st).2.2.hsd_upstr n = st.hsd_upstr n ∧
    (n ∈ (seg_step hsd_ids j a buf st).2.2.alr_counted ↔ n ∈ st.alr_counted) := by
  by_cases hj : st.flow_accum j = 0
  · refine ⟨?_, ?_, ?_⟩
    · simp only [seg_step, if_pos hj]
      exact upd_other _ _ _ _ hn
    · simp only [seg_step, if_pos hj]
      exact upd_other _ _ _ _ hn
    · simp only [seg_step, if_pos hj]
      simp [List.mem_append, hn]
  · refine ⟨?_, ?_, ?_⟩
    · simp only [seg_step, if_neg hj]
      exact upd_other _ _ _ _ hn
    · simp only [seg_step, if_neg hj]
      exact upd_other _ _ _ _ hn
    · simp [seg_step, hj]

/-! ### Lemmas about the segment walk -/

theorem seg_loop_fa_mono {α : Type} (core : List Nat) (r : Nat → Nat) (hsd_ids : Nat → α) :
    ∀ fuel j0 sw a buf (st st' : TSState α),
      seg_loop core r hsd_ids fuel j0 sw a buf st = some st' →
      ∀ n, st.flow_accum n ≤ st'.flow_accum n := by
  intro fuel
  induction fuel with
  | zero =>
    intro j0 sw a buf st st' h n
    simp [seg_loop] at h
  | succ f ih =>
    intro j0 sw a buf st st' h n
    cases sw with
    | false =>
      simp only [seg_loop, Bool.false_eq_true, if_false, true_and, ite_false] at h
      by_cases hc : r j0 ∉ core
      · rw [if_pos hc] at h
        cases h
        exact le_rfl
      · rw [if_neg hc] at h
        by_cases hs : r (r j0) = r j0
        · rw [if_pos hs] at h
          cases h
          exact seg_step_fa_mono hsd_ids (r j0) a buf st n
        · rw [if_neg hs] at h
          exact le_trans (seg_step_fa_mono hsd_ids (r j0) a buf st n) (ih _ _ _ _ _ _ h n)
    | true =>
      simp only [seg_loop, Bool.true_eq_false, false_and, if_false, ite_false,
        if_true, ite_true] at h
      by_cases hs : r j0 = j0
      · rw [if_pos hs] at h
        cases h
        exact seg_step_fa_mono hsd_ids j0 a buf st n
      · rw [if_neg hs] at h
        exact le_trans (seg_step_fa_mono hsd_ids j0 a buf st n) (ih _ _ _ _ _ _ h n)

theorem seg_loop_minv {α : Type} (core : List Nat) (r : Nat → Nat) (hsd_ids : Nat → α) :
    ∀ fuel j0 sw a buf (st st' : TSState α),
      MInv st → a = buf.length →
      (buf ≠ [] ∨ (sw = true ∧ st.flow_accum j0 = 0)) →
      seg_loop core r hsd_ids fuel j0 sw a buf st = some st' →
      MInv st' := by
  intro fuel
  induction fuel with
  | zero =>
    intro j0 sw a buf st st' _ _ _ h
    simp [seg_loop] at h
  | succ f ih =>
    intro j0 sw a buf st st' hinv ha hbuf h
    cases sw with
    | false =>
      have hbne : buf ≠ [] := by
        rcases hbuf with hne | ⟨hsw, _⟩
        · exact hne
        · simp at hsw
      simp only [seg_loop, Bool.false_eq_true, if_false, true_and, ite_false] at h
      by_cases hc : r j0 ∉ core
      · rw [if_pos hc] at h
        cases h
        exact hinv
      · rw [if_neg hc] at h
        have hstep := seg_step_minv hsd_ids (r j0) a buf st hinv ha (Or.inr hbne)
        by_cases hs : r (r j0) = r j0
        · rw [if_pos hs] at h
          cases h
          exact hstep.1
        · rw [if_neg hs] at h
          exact ih _ _ _ _ _ _ hstep.1 hstep.2.1 (Or.inl hstep.2.2) h
    | true =>
      simp only [seg_loop, Bool.true_eq_false, false_and, if_false, ite_false,
        if_true, ite_true] at h
      have hpre : st.flow_accum j0 = 0 ∨ buf ≠ [] := by
        rcases hbuf with hne | ⟨_, hfa⟩
        · exact Or.inr hne
        · exact Or.inl hfa
      have hstep := seg_step_minv hsd_ids j0 a buf st hinv ha hpre
      by_cases hs : r j0 = j0
      · rw [if_pos hs] at h
        cases h
        exact hstep.1
      · rw [if_neg hs] at h
        exact ih _ _ _ _ _ _ hstep.1 hstep.2.1 (Or.inl hstep.2.2) h

theorem seg_loop_start_pos {α : Type} (core : List Nat) (r : Nat → Nat)
    (hsd_ids : Nat → α) (fuel j0 a : Nat) (buf : List α) (st st' : TSState α)
    (h : seg_loop core r hsd_ids fuel j0 true a buf st = some st') :
    0 < st'.flow_accum j0 := by
  cases fuel with
  | zero => simp [seg_loop] at h
  | succ f =>
    simp only [seg_loop, Bool.true_eq_false, false_and, if_false, ite_false,
      if_true, ite_true] at h
    by_cases hs : r j0 = j0
    · rw [if_pos hs] at h
      cases h
      exact seg_step_fa_pos hsd_ids j0 a buf st
    · rw [if_neg hs] at h
      exact lt_of_lt_of_le (seg_step_fa_pos hsd_ids j0 a buf st)
        (seg_loop_fa_mono core r hsd_ids _ _ _ _ _ _ _ h j0)

theorem seg_loop_frame_noncore {α : Type} (core : List Nat) (r : Nat → Nat)
    (hsd_ids : Nat → α) :
    ∀ fuel j0 sw a buf (st st' : TSState α),
      (sw = true → j0 ∈ core) →
      seg_loop core r hsd_ids fuel j0 sw a buf st = some st' →
      ∀ n, n ∉ core →
        st'.flow_accum n = st.flow_accum n ∧ st'.hsd_upstr n = st.hsd_upstr n := by
  intro fuel
  induction fuel with
  | zero =>
    intro j0 sw a buf st st' _ h n _
    simp [seg_loop] at h
  | succ f ih =>
    intro j0 sw a buf st st' hj0 h n hn
    cases sw with
    | false =>
      simp only [seg_loop, Bool.false_eq_true, if_false, true_and, ite_false] at h
      by_cases hc : r j0 ∉ core
      · rw [if_pos hc] at h
        cases h
        exact ⟨rfl, rfl⟩
      · rw [if_neg hc] at h
        have hne : n ≠ r j0 := fun he => hn (he ▸ not_not.mp hc)
        have hfr := seg_step_frame hsd_ids (r j0) a buf st n hne
        by_cases hs : r (r j0) = r j0
        · rw [if_pos hs] at h
          cases h
          exact ⟨hfr.1, hfr.2.1⟩
        · rw [if_neg hs] at h
          have hrest := ih _ _ _ _ _ _ (fun hf => absurd hf (by simp)) h n hn
          exact ⟨hrest.1.trans hfr.1, hrest.2.trans hfr.2.1⟩
    | true =>
      simp only [seg_loop, Bool.true_eq_false, false_and, if_false, ite_false,
        if_true, ite_true] at h
      have hne : n ≠ j0 := fun he => hn (he ▸ hj0 rfl)
      have hfr := seg_step_frame hsd_ids j0 a buf st n hne
      by_cases hs : r j0 = j0
      · rw [if_pos hs] at h
        cases h
        exact ⟨hfr.1, hfr.2.1⟩
      · rw [if_neg hs] at h
        have hrest := ih _ _ _ _ _ _ (fun hf => absurd hf (by simp)) h n hn
        exact ⟨hrest.1.trans hfr.1, hrest.2.trans hfr.2.1⟩

theorem seg_loop_avoid {α : Type} (core : List Nat) (r : Nat → Nat)
    (hsd_ids : Nat → α) (nd : Nat) (hno : ∀ m ∈ core, r m = nd → m = nd) :
    ∀ fuel j0 sw a buf (st st' : TSState α),
      j0 ≠ nd → j0 ∈ core →
      seg_loop core r hsd_ids fuel j0 sw a buf st = some st' →
      st'.flow_accum nd = st.flow_accum nd ∧ st'.hsd_upstr nd = st.hsd_upstr nd ∧
      (nd ∈ st'.alr_counted ↔ nd ∈ st.alr_counted) := by
  intro fuel
  induction fuel with
  | zero =>
    intro j0 sw a buf st st' _ _ h
    simp [seg_loop] at h
  | succ f ih =>
    intro j0 sw a buf st st' hjn hjc h
    cases sw with
    | false =>
      simp only [seg_loop, Bool.false_eq_true, if_false, true_and, ite_false] at h
      by_cases hc : r j0 ∉ core
      · rw [if_pos hc] at h
        cases h
        exact ⟨rfl, rfl, Iff.rfl⟩
      · rw [if_neg hc] at h
        have hrc : r j0 ∈ core := not_not.mp hc
        have hrn : r j0 ≠ nd := fun he => hjn (hno j0 hjc he)
        have hfr := seg_step_frame hsd_ids (r j0) a buf st nd (Ne.symm hrn)
        by_cases hs : r (r j0) = r j0
        · rw [if_pos hs] at h
          cases h
          exact hfr
        · rw [if_neg hs] at h
          have hrest := ih _ _ _ _ _ _ hrn hrc h
          exact ⟨hrest.1.trans hfr.1, hrest.2.1.trans hfr.2.1, hrest.2.2.trans hfr.2.2⟩
    | true =>
      simp only [seg_loop, Bool.true_eq_false, false_and, if_false, ite_false,
        if_true, ite_true] at h
      have hfr := seg_step_frame hsd_ids j0 a buf st nd (Ne.symm hjn)
      by_cases hs : r j0 = j0
      · rw [if_pos hs] at h
        cases h
        exact hfr
      · rw [if_neg hs] at h
        have hrest := ih _ _ _ _ _ _ hjn hjc h
        exact ⟨hrest.1.trans hfr.1, hrest.2.1.trans hfr.2.1, hrest.2.2.trans hfr.2.2⟩

/-! ### Lemmas about the outer traversal loop -/

theorem sink_update_minv {α : Type} (hsd_ids : Nat → α) (i : Nat) (st : TSState α)
    (hinv : MInv st) (hskip : i ∉ st.alr_counted) :
    MInv ⟨st.alr_counted ++ [i], upd st.flow_accum i (st.flow_accum i + 1),
          upd st.hsd_upstr i (some [hsd_ids i])⟩ := by
  obtain ⟨h1, h2, h3⟩ := hinv
  have hfa0 : st.flow_accum i = 0 := by
    by_contra hpos
    exact hskip ((h2 i).mpr (Nat.pos_of_ne_zero hpos))
  refine ⟨?_, ?_, ?_⟩
  · intro n
    by_cases hn : n = i
    · subst hn
      simp [upd, hfa0, optLen]
    · simp only
      rw [upd_other _ _ _ _ hn, upd_other _ _ _ _ hn]
      exact h1 n
  · intro n
    by_cases hn : n = i
    · subst hn
      simp [upd, List.mem_append]
    · simp only
      rw [upd_other _ _ _ _ hn]
      simp only [List.mem_append, List.mem_singleton]
      constructor
      · rintro (h | h)
        · exact (h2 n).mp h
        · exact absurd h hn
      · intro h
        exact Or.inl ((h2 n).mpr h)
  · intro n
    by_cases hn : n = i
    · subst hn
      simp [upd]
    · simp only
      rw [upd_other _ _ _ _ hn]
      exact h3 n

theorem tsl_minv {α : Type} (core : List Nat) (r : Nat → Nat) (hsd_ids : Nat → α)
    (fuel : Nat) :
    ∀ order (st st' : TSState α), MInv st →
      track_source_loop core r hsd_ids fuel order st = some st' → MInv st' := by
  intro order
  induction order with
  | nil =>
    intro st st' hinv h
    simp only [track_source_loop] at h
    cases h
    exact hinv
  | cons i rest ih =>
    intro st st' hinv h
    simp only [track_source_loop] at h
    by_cases hskip : i ∈ st.alr_counted
    · rw [if_pos hskip] at h
      exact ih _ _ hinv h
    · rw [if_neg hskip] at h
      by_cases hsink : r i = i
      · rw [if_pos hsink] at h
        exact ih _ _ (sink_update_minv hsd_ids i st hinv hskip) h
      · rw [if_neg hsink] at h
        cases hseg : seg_loop core r hsd_ids fuel i true 0 [] st with
        | none =>
          simp only [hseg] at h
          cases h
        | some st1 =>
          simp only [hseg] at h
          have hfa0 : st.flow_accum i = 0 := by
            by_contra hpos
            exact hskip ((hinv.2.1 i).mpr (Nat.pos_of_ne_zero hpos))
          have hst1 := seg_loop_minv core r hsd_ids fuel i true 0 [] st st1 hinv rfl
            (Or.inr ⟨rfl, hfa0⟩) hseg
          exact ih _ _ hst1 h

theorem tsl_fa_mono {α : Type} (core : List Nat) (r : Nat → Nat) (hsd_ids : Nat → α)
    (fuel : Nat) :
    ∀ order (st st' : TSState α),
      track_source_loop core r hsd_ids fuel order st = some st' →
      ∀ n, st.flow_accum n ≤ st'.flow_accum n := by
  intro order
  induction order with
  | nil =>
    intro st st' h n
    simp only [track_source_loop] at h
    cases h
    exact le_rfl
  | cons i rest ih =>
    intro st st' h n
    simp only [track_source_loop] at h
    by_cases hskip : i ∈ st.alr_counted
    · rw [if_pos hskip] at h
      exact ih _ _ h n
    · rw [if_neg hskip] at h
      by_cases hsink : r i = i
      · rw [if_pos hsink] at h
        refine le_trans ?_ (ih _ _ h n)
        by_cases hn : n = i
        · subst hn
          simp [upd]
        · simp only
          rw [upd_other _ _ _ _ hn]
      · rw [if_neg hsink] at h
        cases hseg : seg_loop core r hsd_ids fuel i true 0 [] st with
        | none =>
          simp only [hseg] at h
          cases h
        | some st1 =>
          simp only [hseg] at h
          exact le_trans (seg_loop_fa_mono core r hsd_ids _ _ _ _ _ _ _ hseg n) (ih _ _ h n)

theorem tsl_processed {α : Type} (core : List Nat) (r : Nat → Nat) (hsd_ids : Nat → α)
    (fuel : Nat) :
    ∀ order (st st' : TSState α) (n : Nat), MInv st → n ∈ order →
      track_source_loop core r hsd_ids fuel order st = some st' →
      0 < st'.flow_accum n := by
  intro order
  induction order with
  | nil =>
    intro st st' n _ hmem _
    simp at hmem
  | cons i rest ih =>
    intro st st' n hinv hmem h
    simp only [track_source_loop] at h
    by_cases hskip : i ∈ st.alr_counted
    · rw [if_pos hskip] at h
      rcases List.mem_cons.mp hmem with hni | hni
      · subst hni
        have : 0 < st.flow_accum n := (hinv.2.1 n).mp hskip
        exact lt_of_lt_of_le this (tsl_fa_mono core r hsd_ids fuel rest st st' h n)
      · exact ih _ _ _ hinv hni h
    · rw [if_neg hskip] at h
      by_cases hsink : r i = i
      · rw [if_pos hsink] at h
        have hinv1 := sink_update_minv hsd_ids i st hinv hskip
        rcases List.mem_cons.mp hmem with hni | hni
        · subst hni
          refine lt_of_lt_of_le ?_ (tsl_fa_mono core r hsd_ids fuel rest _ st' h n)
          simp [upd]
        · exact ih _ _ _ hinv1 hni h
      · rw [if_neg hsink] at h
        cases hseg : seg_loop core r hsd_ids fuel i true 0 [] st with
        | none =>
          simp only [hseg] at h
          cases h
        | some st1 =>
          simp only [hseg] at h
          have hfa0 : st.flow_accum i = 0 := by
            by_contra hpos
            exact hskip ((hinv.2.1 i).mpr (Nat.pos_of_ne_zero hpos))
          have hinv1 := seg_loop_minv core r hsd_ids fuel i true 0 [] st st1 hinv rfl
            (Or.inr ⟨rfl, hfa0⟩) hseg
          rcases List.mem_cons.mp hmem with hni | hni
          · subst hni
            exact lt_of_lt_of_le (seg_loop_start_pos core r hsd_ids fuel n 0 [] st st1 hseg)
              (tsl_fa_mono core r hsd_ids fuel rest st1 st' h n)
          · exact ih _ _ _ hinv1 hni h

theorem tsl_frame_noncore {α : Type} (core : List Nat) (r : Nat → Nat)
    (hsd_ids : Nat → α) (fuel : Nat) :
    ∀ order (st st' : TSState α), (∀ i ∈ order, i ∈ core) →
      track_source_loop core r hsd_ids fuel order st = some st' →
      ∀ n, n ∉ core →
        st'.flow_accum n = st.flow_accum n ∧ st'.hsd_upstr n = st.hsd_upstr n := by
  intro order
  induction order with
  | nil =>
    intro st st' _ h n _
    simp only [track_source_loop] at h
    cases h
    exact ⟨rfl, rfl⟩
  | cons i rest ih =>
    intro st st' hord h n hn
    have hic : i ∈ core := hord i (List.mem_cons_self i rest)
    have hrest : ∀ x ∈ rest, x ∈ core := fun x hx => hord x (List.mem_cons_of_mem i hx)
    have hni : n ≠ i := fun he => hn (he ▸ hic)
    simp only [track_source_loop] at h
    by_cases hskip : i ∈ st.alr_counted
    · rw [if_pos hskip] at h
      exact ih _ _ hrest h n hn
    · rw [if_neg hskip] at h
      by_cases hsink : r i = i
      · rw [if_pos hsink] at h
        have hrec := ih _ _ hrest h n hn
        refine ⟨?_, ?_⟩
        · rw [hrec.1]
          simp only
          rw [upd_other _ _ _ _ hni]
        · rw [hrec.2]
          simp only
          rw [upd_other _ _ _ _ hni]
      · rw [if_neg hsink] at h
        cases hseg : seg_loop core r hsd_ids fuel i true 0 [] st with
        | none =>
          simp only [hseg] at h
          cases h
        | some st1 =>
          simp only [hseg] at h
          have hfr := seg_loop_frame_noncore core r hsd_ids fuel i true 0 [] st st1
            (fun _ => hic) hseg n hn
          have hrec := ih _ _ hrest h n hn
          exact ⟨hrec.1.trans hfr.1, hrec.2.trans hfr.2⟩

theorem mem_insert_desc (z : Nat → ℚ) (x : Nat) :
    ∀ (l : List Nat) (n : Nat), n ∈ insert_desc z x l ↔ n = x ∨ n ∈ l := by
  intro l
  induction l with
  | nil => intro n; simp [insert_desc]
  | cons y ys ih =>
    intro n
    simp only [insert_desc]
    by_cases h : z y < z x
    · rw [if_pos h]
      simp [List.mem_cons]
    · rw [if_neg h]
      simp only [List.mem_cons, ih]
      tauto

theorem mem_sort_desc (z : Nat → ℚ) :
    ∀ (l : List Nat) (n : Nat), n ∈ sort_desc z l ↔ n ∈ l := by
  intro l
  induction l with
  | nil => intro n; simp [sort_desc]
  | cons x xs ih =>
    intro n
    simp only [sort_desc, mem_insert_desc, ih, List.mem_cons]

theorem init_minv (α : Type) : MInv (init_state α) := by
  refine ⟨?_, ?_, ?_⟩
  · intro n
    rfl
  · intro n
    simp [init_state]
  · intro n
    simp [init_state]

theorem tsl_done_abs {α : Type} (core : List Nat) (r : Nat → Nat) (hsd_ids : Nat → α)
    (fuel : Nat) (nd : Nat) (hsink : r nd = nd)
    (hno : ∀ m ∈ core, r m = nd → m = nd) :
    ∀ order (st st' : TSState α), (∀ i ∈ order, i ∈ core) →
      sink_done hsd_ids nd st →
      track_source_loop core r hsd_ids fuel order st = some st' →
      sink_done hsd_ids nd st' := by
  intro order
  induction order with
  | nil =>
    intro st st' _ hdone h
    simp only [track_source_loop] at h
    cases h
    exact hdone
  | cons i rest ih =>
    intro st st' hord hdone h
    have hic : i ∈ core := hord i (List.mem_cons_self i rest)
    have hrest : ∀ x ∈ rest, x ∈ core := fun x hx => hord x (List.mem_cons_of_mem i hx)
    simp only [track_source_loop] at h
    by_cases hskip : i ∈ st.alr_counted
    · rw [if_pos hskip] at h
      exact ih _ _ hrest hdone h
    · rw [if_neg hskip] at h
      have hine : i ≠ nd := fun he => hskip (he ▸ hdone.2.2)
      by_cases hsinki : r i = i
      · rw [if_pos hsinki] at h
        refine ih _ _ hrest ⟨?_, ?_, ?_⟩ h
        · simp only
          rw [upd_other _ _ _ _ (Ne.symm hine)]
          exact hdone.1
        · simp only
          rw [upd_other _ _ _ _ (Ne.symm hine)]
          exact hdone.2.1
        · simp only [List.mem_append]
          exact Or.inl hdone.2.2
      · rw [if_neg hsinki] at h
        cases hseg : seg_loop core r hsd_ids fuel i true 0 [] st with
        | none =>
          simp only [hseg] at h
          cases h
        | some st1 =>
          simp only [hseg] at h
          have hav := seg_loop_avoid core r hsd_ids nd hno fuel i true 0 [] st st1
            hine hic hseg
          refine ih _ _ hrest ⟨?_, ?_, ?_⟩ h
          · rw [hav.1]
            exact hdone.1
          · rw [hav.2.1]
            exact hdone.2.1
          · exact hav.2.2.mpr hdone.2.2

theorem tsl_pending {α : Type} (core : List Nat) (r : Nat → Nat) (hsd_ids : Nat → α)
    (fuel : Nat) (nd : Nat) (hsink : r nd = nd)
    (hno : ∀ m ∈ core, r m = nd → m = nd) :
    ∀ order (st st' : TSState α), (∀ i ∈ order, i ∈ core) →
      (sink_pending nd st ∨ sink_done hsd_ids nd st) →
      track_source_loop core r hsd_ids fuel order st = some st' →
      (sink_pending nd st' ∨ sink_done hsd_ids nd st') ∧
      (nd ∈ order → sink_done hsd_ids nd st') := by
  intro order
  induction order with
  | nil =>
    intro st st' _ hq h
    simp only [track_source_loop] at h
    cases h
    exact ⟨hq, fun hmem => absurd hmem (by simp)⟩
  | cons i rest ih =>
    intro st st' hord hq h
    have hic : i ∈ core := hord i (List.mem_cons_self i rest)
    have hrest : ∀ x ∈ rest, x ∈ core := fun x hx => hord x (List.mem_cons_of_mem i hx)
    simp only [track_source_loop] at h
    by_cases hskip : i ∈ st.alr_counted
    · rw [if_pos hskip] at h
      have hrec := ih _ _ hrest hq h
      refine ⟨hrec.1, fun hmem => ?_⟩
      rcases List.mem_cons.mp hmem with he | hmem2
      · rcases hq with hp | hd
        · exact absurd (he ▸ hskip) hp.2.2
        · exact tsl_done_abs core r hsd_ids fuel nd hsink hno rest st st' hrest hd h
      · exact hrec.2 hmem2
    · rw [if_neg hskip] at h
      by_cases hsinki : r i = i
      · rw [if_pos hsinki] at h
        by_cases hie : i = nd
        · subst hie
          rcases hq with hp | hd
          · have hd1 : sink_done hsd_ids i
                ⟨st.alr_counted ++ [i], upd st.flow_accum i (st.flow_accum i + 1),
                 upd st.hsd_upstr i (some [hsd_ids i])⟩ := by
              refine ⟨?_, ?_, ?_⟩
              · simp only
                rw [upd_same, hp.1]
              · simp only
                rw [upd_same]
              · simp [List.mem_append]
            have hdone := tsl_done_abs core r hsd_ids fuel i hsink hno rest _ st' hrest hd1 h
            exact ⟨Or.inr hdone, fun _ => hdone⟩
          · exact absurd hd.2.2 hskip
        · have hine : nd ≠ i := fun he => hie he.symm
          have hq1 : sink_pending nd
                ⟨st.alr_counted ++ [i], upd st.flow_accum i (st.flow_accum i + 1),
                 upd st.hsd_upstr i (some [hsd_ids i])⟩ ∨
              sink_done hsd_ids nd
                ⟨st.alr_counted ++ [i], upd st.flow_accum i (st.flow_accum i + 1),
                 upd st.hsd_upstr i (some [hsd_ids i])⟩ := by
            rcases hq with hp | hd
            · refine Or.inl ⟨?_, ?_, ?_⟩
              · simp only
                rw [upd_other _ _ _ _ hine]
                exact hp.1
              · simp only
                rw [upd_other _ _ _ _ hine]
                exact hp.2.1
              · simp only [List.mem_append, List.mem_singleton]
                rintro (hm | hm)
                · exact hp.2.2 hm
                · exact hine hm
            · refine Or.inr ⟨?_, ?_, ?_⟩
              · simp only
                rw [upd_other _ _ _ _ hine]
                exact hd.1
              · simp only
                rw [upd_other _ _ _ _ hine]
                exact hd.2.1
              · simp only [List.mem_append]
                exact Or.inl hd.2.2
          have hrec := ih _ _ hrest hq1 h
          refine ⟨hrec.1, fun hmem => ?_⟩
          rcases List.mem_cons.mp hmem with he | hmem2
          · exact absurd he.symm hie
          · exact hrec.2 hmem2
      · rw [if_neg hsinki] at h
        have hine : i ≠ nd := fun he => hsinki (he ▸ hsink)
        cases hseg : seg_loop core r hsd_ids fuel i true 0 [] st with
        | none =>
          simp only [hseg] at h
          cases h
        | some st1 =>
          simp only [hseg] at h
          have hav := seg_loop_avoid core r hsd_ids nd hno fuel i true 0 [] st st1
            hine hic hseg
          have hq1 : sink_pending nd st1 ∨ sink_done hsd_ids nd st1 := by
            rcases hq with hp | hd
            · refine Or.inl ⟨?_, ?_, ?_⟩
              · rw [hav.1]
                exact hp.1
              · rw [hav.2.1]
                exact hp.2.1
              · intro hm
                exact hp.2.2 (hav.2.2.mp hm)
            · refine Or.inr ⟨?_, ?_, ?_⟩
              · rw [hav.1]
                exact hd.1
              · rw [hav.2.1]
                exact hd.2.1
              · exact hav.2.2.mpr hd.2.2
          have hrec := ih _ _ hrest hq1 h
          refine ⟨hrec.1, fun hmem => ?_⟩
          rcases List.mem_cons.mp hmem with he | hmem2
          · exact absurd he.symm hine
          · exact hrec.2 hmem2

/-! ### Claim theorems about the traversal -/

/-- C2: whenever track_source completes, flow_accum[n] equals the length
of hsd_upstr[n] for every node n, a node with no hsd_upstr entry having
flow_accum 0 (optLen maps an absent entry to 0). -/
theorem C2_flow_accum_eq_length {α : Type} (g : Grid) (r : Nat → Nat)
    (hsd_ids : Nat → α) (fuel : Nat) (st : TSState α)
    (h : track_source g r hsd_ids fuel = some st) :
    ∀ n, st.flow_accum n = optLen (st.hsd_upstr n) :=
  fun n => (tsl_minv g.core_nodes r hsd_ids fuel _ _ _ (init_minv α) h).1 n

/-- Witness for C2 at the worked scenario. -/
theorem C2_witness :
    ∃ st, track_source c1_grid c1_r c1_hsd 16 = some st ∧
      st.flow_accum 4 = optLen (st.hsd_upstr 4) :=
  ⟨_, rfl, C2_flow_accum_eq_length c1_grid c1_r c1_hsd 16 _ rfl 4⟩

/-- C10: whenever track_source completes, every core node has an
hsd_upstr entry of length at least 1 and flow_accum at least 1, while
every non-core node has no entry and flow_accum exactly 0. -/
theorem C10_core_vs_noncore {α : Type} (g : Grid) (r : Nat → Nat)
    (hsd_ids : Nat → α) (fuel : Nat) (st : TSState α)
    (h : track_source g r hsd_ids fuel = some st) :
    (∀ n ∈ g.core_nodes, 1 ≤ st.flow_accum n ∧
      ∃ l, st.hsd_upstr n = some l ∧ 1 ≤ l.length) ∧
    (∀ n, n ∉ g.core_nodes → st.flow_accum n = 0 ∧ st.hsd_upstr n = none) := by
  have hinv := tsl_minv g.core_nodes r hsd_ids fuel _ _ _ (init_minv α) h
  constructor
  · intro n hn
    have hmem : n ∈ sort_desc g.elevation g.core_nodes := (mem_sort_desc _ _ n).mpr hn
    have hpos := tsl_processed g.core_nodes r hsd_ids fuel _ _ _ n (init_minv α) hmem h
    have hlen := hinv.1 n
    cases hu : st.hsd_upstr n with
    | none =>
      rw [hu] at hlen
      simp only [optLen] at hlen
      omega
    | some l =>
      rw [hu] at hlen
      simp only [optLen] at hlen
      exact ⟨hpos, l, rfl, by omega⟩
  · intro n hn
    have hord : ∀ i ∈ sort_desc g.elevation g.core_nodes, i ∈ g.core_nodes :=
      fun i hi => (mem_sort_desc _ _ i).mp hi
    have hfr := tsl_frame_noncore g.core_nodes r hsd_ids fuel _ _ _ hord h n hn
    exact ⟨hfr.1, hfr.2⟩

/-- Witness for C10 at the worked scenario: core node 2 and non-core
node 0. -/
theorem C10_witness :
    ∃ st, track_source c1_grid c1_r c1_hsd 16 = some st ∧
      1 ≤ st.flow_accum 2 ∧ st.flow_accum 0 = 0 ∧ st.hsd_upstr 0 = none :=
  ⟨_, rfl,
   ((C10_core_vs_noncore c1_grid c1_r c1_hsd 16 _ rfl).1 2 (by decide)).1,
   ((C10_core_vs_noncore c1_grid c1_r c1_hsd 16 _ rfl).2 0 (by decide)).1,
   ((C10_core_vs_noncore c1_grid c1_r c1_hsd 16 _ rfl).2 0 (by decide)).2⟩

/-- C5 counterexample: node 4 of the worked acyclic scenario is a core
sink (its own receiver), the traversal completes, and its flow_accum is
4, not 1, because three upstream nodes drain through it. -/
theorem C5_counterexample :
    (4 ∈ c1_grid.core_nodes) ∧ c1_r 4 = 4 ∧
    (track_source c1_grid c1_r c1_hsd 16).isSome = true ∧
    fa_of (track_source c1_grid c1_r c1_hsd 16) 4 = 4 ∧
    fa_of (track_source c1_grid c1_r c1_hsd 16) 4 ≠ 1 :=
  ⟨by decide, by decide, by decide, by decide, by decide⟩

/-- C5 (amended): for every completing run, every core sink node that is
not the receiver of any other core node ends with flow_accum 1 and
hsd_upstr equal to the singleton of its own HSD identifier.  (The
unrestricted claim fails for sinks with upstream contributors, see the
counterexample.) -/
theorem C5_amended_isolated_sink {α : Type} (g : Grid) (r : Nat → Nat)
    (hsd_ids : Nat → α) (fuel : Nat) (st : TSState α) (nd : Nat)
    (h : track_source g r hsd_ids fuel = some st) (hn : nd ∈ g.core_nodes)
    (hs : r nd = nd) (hin : ∀ m ∈ g.core_nodes, r m = nd → m = nd) :
    st.flow_accum nd = 1 ∧ st.hsd_upstr nd = some [hsd_ids nd] := by
  have hord : ∀ i ∈ sort_desc g.elevation g.core_nodes, i ∈ g.core_nodes :=
    fun i hi => (mem_sort_desc _ _ i).mp hi
  have hmem : nd ∈ sort_desc g.elevation g.core_nodes := (mem_sort_desc _ _ nd).mpr hn
  have hp : sink_pending nd (init_state α) := ⟨rfl, rfl, by simp [init_state]⟩
  have hdone := (tsl_pending g.core_nodes r hsd_ids fuel nd hs hin _ _ _ hord
    (Or.inl hp) h).2 hmem
  exact ⟨hdone.1, hdone.2.1⟩

/-- Witness for the amended C5: in the two-sink scenario node 5 is an
isolated sink and ends with flow_accum 1 and its own HSD id. -/
theorem C5_witness :
    ∃ st, track_source c5_grid c5_r c5_hsd 4 = some st ∧
      st.flow_accum 5 = 1 ∧ st.hsd_upstr 5 = some [c5_hsd 5] :=
  ⟨_, rfl, C5_amended_isolated_sink c5_grid c5_r c5_hsd 4 _ 5 rfl (by decide) rfl
    (fun m _ hr => hr)⟩

/-! ### The cyclic receiver map: the walk never reaches a break -/

theorem cyc_seg_loop_none :
    ∀ fuel j0 sw a buf (st : TSState Char), (j0 = 0 ∨ j0 = 1) →
      seg_loop cyc_grid.core_nodes cyc_r cyc_hsd fuel j0 sw a buf st = none := by
  intro fuel
  induction fuel with
  | zero =>
    intro j0 sw a buf st _
    rfl
  | succ f ih =>
    intro j0 sw a buf st hj
    cases sw with
    | true =>
      simp only [seg_loop, Bool.true_eq_false, false_and, if_false, ite_false,
        if_true, ite_true]
      have hne : cyc_r j0 ≠ j0 := by
        rcases hj with h0 | h0 <;> subst h0 <;> decide
      rw [if_neg hne]
      exact ih j0 false _ _ _ hj
    | false =>
      simp only [seg_loop, Bool.false_eq_true, if_false, true_and, ite_false]
      have hj2 : cyc_r j0 = 0 ∨ cyc_r j0 = 1 := by
        rcases hj with h0 | h0 <;> subst h0 <;> decide
      have hjc : cyc_r j0 ∈ cyc_grid.core_nodes := by
        rcases hj2 with h0 | h0 <;> rw [h0] <;> decide
      rw [if_neg (not_not_intro hjc)]
      have hne : cyc_r (cyc_r j0) ≠ cyc_r j0 := by
        rcases hj2 with h0 | h0 <;> rw [h0] <;> decide
      rw [if_neg hne]
      exact ih (cyc_r j0) false _ _ _ hj2

/-- C3 (code behavior): on a receiver map with a two-node mutual cycle
among core nodes (r(0) = 1, r(1) = 0, no reachable sink) the source's
segment walk never reaches a break: the fuel-bounded embedding of
track_source returns `none` (fuel exhausted) for every fuel, i.e. the
source loops forever and never signals a CyclicFlowGraph error (the
source contains no cycle detection and no error path at all). -/
theorem C3_cycle_never_terminates :
    ∀ fuel, track_source cyc_grid cyc_r cyc_hsd fuel = none := by
  intro fuel
  unfold track_source
  have hord : sort_desc cyc_grid.elevation cyc_grid.core_nodes = [0, 1] := by decide
  rw [hord]
  have hseg := cyc_seg_loop_none fuel 0 true 0 [] (init_state Char) (Or.inl rfl)
  simp only [track_source_loop]
  rw [if_neg (by decide : ¬ ((0 : Nat) ∈ (init_state Char).alr_counted))]
  rw [if_neg (by decide : ¬ (cyc_r 0 = 0))]
  rw [hseg]

/-! ### Claim theorems about the decoder -/

/-- C7: for a core node with all eight neighbors defined (orthogonal
native order E, N, W, S and diagonal native order NE, NW, SW, SE) and a
valid code 2 ^ k with k < 8, the decoded receiver is the neighbor at
position k of the clockwise-from-east ordering E, SE, S, SW, W, NW, N,
NE, i.e. of the two individually reversed native orderings interleaved. -/
theorem C7_decode_roundtrip (g : Grid) (cm : Nat → Nat) (nd k : Nat)
    (en nn wn sn nen nwn swn sen : Int)
    (hk : k < 8) (hc : nd ∈ g.core_nodes)
    (hne : g.neighbors_at_node nd = [en, nn, wn, sn])
    (hd : g.diagonals_at_node nd = [nen, nwn, swn, sen])
    (hcode : cm nd = 2 ^ k) :
    convert_arc_flow_directions_to_landlab_node_ids g cm nd =
      [en, sen, sn, swn, wn, nwn, nn, nen].getD k 0 := by
  unfold convert_arc_flow_directions_to_landlab_node_ids
  rw [if_pos hc, hne, hd, hcode, floor_log2_two_pow]
  interval_cases k <;> rfl

/-- Witness for C7: code 4 = 2 ^ 2 decodes to the south neighbor (id 13),
the position-2 entry of the clockwise ordering. -/
theorem C7_witness :
    (2 < 8) ∧
    convert_arc_flow_directions_to_landlab_node_ids c7_grid (fun _ => 4) 4 =
      [(10 : Int), 23, 13, 22, 12, 21, 11, 20].getD 2 0 :=
  ⟨by decide,
   C7_decode_roundtrip c7_grid (fun _ => 4) 4 2 10 11 12 13 20 21 22 23
     (by decide) (by decide) rfl rfl rfl⟩

/-- C4 counterexample: code 3 is not an exact power of two, yet the
decoder silently produces the same receiver as code 2 (the southeast
neighbor, id 23) for the core node of c7_grid; like the source, the
embedded decoder is a total function with no error path, so no
InvalidFlowCode error is ever signalled. -/
theorem C4_counterexample :
    convert_arc_flow_directions_to_landlab_node_ids c7_grid (fun _ => 3) 4 =
      convert_arc_flow_directions_to_landlab_node_ids c7_grid (fun _ => 2) 4 ∧
    convert_arc_flow_directions_to_landlab_node_ids c7_grid (fun _ => 3) 4 = 23 :=
  ⟨by decide, by decide⟩

/-- C4 (amended): for a code in 1..255 that is not an exact power of two
the decoder signals no InvalidFlowCode error: the receiver is computed
solely from the truncated base-2 logarithm of the code, whose value
stays in the valid index range 0..7, so the code is silently coerced to
exactly the receiver of the power of two 2 ^ floor_log2 code.  (Codes
outside 1..255 decode to an out-of-range index and fail with np.choose's
generic ValueError instead, which is not InvalidFlowCode either but lies
outside this embedding; see the decoder's doc comment.) -/
theorem C4_amended_silent_coercion (g : Grid) (cm : Nat → Nat) (nd : Nat)
    (hpos : 0 < cm nd) (hlt : cm nd < 256) :
    floor_log2 (cm nd) < 8 ∧
    convert_arc_flow_directions_to_landlab_node_ids g cm nd =
      convert_arc_flow_directions_to_landlab_node_ids g
        (fun m => 2 ^ floor_log2 (cm m)) nd := by
  constructor
  · rw [floor_log2_eq_log2]
    have h256 : cm nd < 2 ^ 8 := hlt
    exact (Nat.log2_lt (by omega)).mpr h256
  · unfold convert_arc_flow_directions_to_landlab_node_ids
    simp only [floor_log2_two_pow]

/-- Witness for the amended C4 at code 3. -/
theorem C4_witness :
    (0 < 3 ∧ 3 < 256) ∧
    (floor_log2 3 < 8 ∧
     convert_arc_flow_directions_to_landlab_node_ids c7_grid (fun _ => 3) 4 =
       convert_arc_flow_directions_to_landlab_node_ids c7_grid
         (fun _ => 2 ^ floor_log2 3) 4) :=
  ⟨⟨by decide, by decide⟩,
   C4_amended_silent_coercion c7_grid (fun _ => 3) 4 (by decide) (by decide)⟩

/-! ### Lemmas about the insertion-ordered counter -/

theorem bump_map_fst {α : Type} [DecidableEq α] :
    ∀ (c : List (α × Nat)) (x : α),
      (bump c x).map Prod.fst =
        if x ∈ c.map Prod.fst then c.map Prod.fst else c.map Prod.fst ++ [x] := by
  intro c
  induction c with
  | nil =>
    intro x
    simp [bump]
  | cons p rest ih =>
    intro x
    obtain ⟨y, n⟩ := p
    simp only [bump]
    by_cases h : y = x
    · subst h
      simp [List.mem_cons]
    · rw [if_neg h]
      simp only [List.map_cons, ih]
      by_cases hm : x ∈ rest.map Prod.fst
      · rw [if_pos hm, if_pos (List.mem_cons_of_mem y hm)]
      · rw [if_neg hm, if_neg ?_]
        · rfl
        · intro hx
          rcases List.mem_cons.mp hx with he | hx2
          · exact h he.symm
          · exact hm hx2

theorem counter_keys {α : Type} [DecidableEq α] :
    ∀ (l : List α) (c : List (α × Nat)),
      (List.foldl bump c l).map Prod.fst =
        l.foldl (fun acc x => if x ∈ acc then acc else acc ++ [x]) (c.map Prod.fst) := by
  intro l
  induction l with
  | nil =>
    intro c
    simp
  | cons x xs ih =>
    intro c
    simp only [List.foldl_cons]
    rw [ih (bump c x), bump_map_fst]

theorem counter_of_keys {α : Type} [DecidableEq α] (l : List α) :
    (counter_of l).map Prod.fst = spec_first_encountered_order l := by
  unfold counter_of spec_first_encountered_order
  rw [counter_keys]
  rfl

theorem cnt_val_bump {α : Type} [DecidableEq α] :
    ∀ (c : List (α × Nat)) (x z : α),
      cnt_val (bump c x) z = cnt_val c z + if x = z then 1 else 0 := by
  intro c
  induction c with
  | nil =>
    intro x z
    simp only [bump, cnt_val]
    by_cases h : x = z
    · simp [h]
    · simp [h]
  | cons p rest ih =>
    intro x z
    obtain ⟨y, n⟩ := p
    simp only [bump]
    by_cases hy : y = x
    · subst hy
      simp only [if_pos rfl, cnt_val]
      by_cases hz : y = z
      · simp [hz]
      · simp [hz]
    · rw [if_neg hy]
      simp only [cnt_val]
      by_cases hz : y = z
      · have hxz : x ≠ z := fun he => hy (hz.trans he.symm)
        simp [hz, hxz]
      · simp [hz, ih]

theorem cnt_val_counter {α : Type} [DecidableEq α] :
    ∀ (l : List α) (c : List (α × Nat)) (z : α),
      cnt_val (List.foldl bump c l) z = cnt_val c z + l.count z := by
  intro l
  induction l with
  | nil =>
    intro c z
    simp
  | cons x xs ih =>
    intro c z
    simp only [List.foldl_cons, List.count_cons]
    rw [ih, cnt_val_bump]
    by_cases h : x = z <;> simp [h] <;> omega

theorem bump_keys_nodup {α : Type} [DecidableEq α] (c : List (α × Nat)) (x : α)
    (h : (c.map Prod.fst).Nodup) : ((bump c x).map Prod.fst).Nodup := by
  rw [bump_map_fst]
  by_cases hm : x ∈ c.map Prod.fst
  · rw [if_pos hm]
    exact h
  · rw [if_neg hm]
    simp [List.nodup_append, h, hm]

theorem counter_keys_nodup {α : Type} [DecidableEq α] :
    ∀ (l : List α) (c : List (α × Nat)),
      (c.map Prod.fst).Nodup → ((List.foldl bump c l).map Prod.fst).Nodup := by
  intro l
  induction l with
  | nil =>
    intro c h
    simpa using h
  | cons x xs ih =>
    intro c h
    simp only [List.foldl_cons]
    exact ih (bump c x) (bump_keys_nodup c x h)

theorem mem_counter_val {α : Type} [DecidableEq α] :
    ∀ (c : List (α × Nat)), (c.map Prod.fst).Nodup →
      ∀ p ∈ c, p.2 = cnt_val c p.1 := by
  intro c
  induction c with
  | nil =>
    intro _ p hp
    simp at hp
  | cons q rest ih =>
    intro hnd p hp
    obtain ⟨y, n⟩ := q
    have hnd2 := List.nodup_cons.mp (show (y :: rest.map Prod.fst).Nodup from hnd)
    rcases List.mem_cons.mp hp with he | hm
    · subst he
      simp [cnt_val]
    · have hp1 : p.1 ∈ rest.map Prod.fst := List.mem_map_of_mem Prod.fst hm
      have hne : y ≠ p.1 := fun he => hnd2.1 (he ▸ hp1)
      simp only [cnt_val, if_neg hne]
      exact ih hnd2.2 p hm

theorem bump_map_snd_sum {α : Type} [DecidableEq α] :
    ∀ (c : List (α × Nat)) (x : α),
      ((bump c x).map Prod.snd).sum = (c.map Prod.snd).sum + 1 := by
  intro c
  induction c with
  | nil =>
    intro x
    simp [bump]
  | cons p rest ih =>
    intro x
    obtain ⟨y, n⟩ := p
    simp only [bump]
    by_cases h : y = x
    · subst h
      rw [if_pos rfl]
      simp only [List.map_cons, List.sum_cons]
      omega
    · rw [if_neg h]
      simp only [List.map_cons, List.sum_cons, ih]
      omega

theorem counter_sum {α : Type} [DecidableEq α] :
    ∀ (l : List α) (c : List (α × Nat)),
      ((List.foldl bump c l).map Prod.snd).sum = (c.map Prod.snd).sum + l.length := by
  intro l
  induction l with
  | nil =>
    intro c
    simp
  | cons x xs ih =>
    intro c
    simp only [List.foldl_cons, List.length_cons]
    rw [ih, bump_map_snd_sum]
    omega

theorem counter_of_sum {α : Type} [DecidableEq α] (l : List α) :
    ((counter_of l).map Prod.snd).sum = l.length := by
  unfold counter_of
  rw [counter_sum]
  simp

theorem counter_of_val {α : Type} [DecidableEq α] (l : List α) :
    ∀ p ∈ counter_of l, p.2 = l.count p.1 := by
  intro p hp
  have hnd : ((counter_of l).map Prod.fst).Nodup :=
    counter_keys_nodup l [] (by simp)
  rw [mem_counter_val (counter_of l) hnd p hp]
  unfold counter_of
  rw [cnt_val_counter]
  simp [cnt_val]

theorem list_sum_div (L : List ℚ) (T : ℚ) :
    (L.map fun s => s / T).sum = L.sum / T := by
  induction L with
  | nil => simp
  | cons a l ih => simp [ih, add_div]

/-! ### Claim theorems about the aggregation -/

/-- C6: for a node with a non-empty upstream sequence, the aggregation
returns the distinct identifiers in first-encountered order, together
with the positionally aligned fractions count / length, and the
fractions sum to exactly 1 (hence are within 1e-9 of 1). -/
theorem C6_aggregation {α : Type} [DecidableEq α] (l : List α) (hne : l ≠ []) :
    (aggregate_node l).1 = spec_first_encountered_order l ∧
    (aggregate_node l).2 =
      (spec_first_encountered_order l).map
        (fun x => (l.count x : ℚ) / (l.length : ℚ)) ∧
    (aggregate_node l).2.sum = 1 ∧
    |(aggregate_node l).2.sum - 1| ≤ 1 / 1000000000 := by
  have hlen : (l.length : ℚ) ≠ 0 := by
    have hpos : 0 < l.length := List.length_pos.mpr hne
    exact Nat.cast_ne_zero.mpr (by omega)
  have h1 : (aggregate_node l).1 = spec_first_encountered_order l := counter_of_keys l
  have h2 : (aggregate_node l).2 =
      (spec_first_encountered_order l).map
        (fun x => (l.count x : ℚ) / (l.length : ℚ)) := by
    show ((counter_of l).map Prod.snd).map
        (fun s : Nat => (s : ℚ) / ((((counter_of l).map Prod.snd).sum : ℕ) : ℚ)) = _
    rw [counter_of_sum l, ← counter_of_keys l, List.map_map, List.map_map]
    refine List.map_congr_left ?_
    intro p hp
    simp only [Function.comp_apply]
    rw [counter_of_val l p hp]
  have h3 : (aggregate_node l).2.sum = 1 := by
    show (((counter_of l).map Prod.snd).map
        (fun s : Nat => (s : ℚ) / ((((counter_of l).map Prod.snd).sum : ℕ) : ℚ))).sum = 1
    rw [counter_of_sum l]
    have hsplit : ((counter_of l).map Prod.snd).map
        (fun s : Nat => (s : ℚ) / (l.length : ℚ)) =
        (((counter_of l).map Prod.snd).map (Nat.cast : Nat → ℚ)).map
          (fun q => q / (l.length : ℚ)) := by
      conv_rhs => rw [List.map_map]
      rfl
    rw [hsplit, list_sum_div, ← Nat.cast_list_sum, counter_of_sum l]
    exact div_self hlen
  refine ⟨h1, h2, h3, ?_⟩
  rw [h3]
  norm_num

/-- Witness for C6 on the list A, B, A. -/
theorem C6_witness :
    ((['A', 'B', 'A'] : List Char) ≠ []) ∧
    (aggregate_node ['A', 'B', 'A']).1 = spec_first_encountered_order ['A', 'B', 'A'] ∧
    (aggregate_node ['A', 'B', 'A']).2.sum = 1 :=
  ⟨by decide, (C6_aggregation ['A', 'B', 'A'] (by decide)).1,
   (C6_aggregation ['A', 'B', 'A'] (by decide)).2.2.1⟩

/-- C8 counterexample: on a map with one node whose upstream sequence is
empty, find_unique_upstream_hsd_ids_and_fractions returns normally with
empty unique-id and coefficient lists for that node.  Like the source
(whose coefficient list comprehension iterates over the empty count list
and so never divides), the embedding is a total function with no error
path: no DegenerateNode error exists to be signalled, and no division by
zero occurs. -/
theorem C8_counterexample :
    find_unique_upstream_hsd_ids_and_fractions [(0, ([] : List Char))] =
      ([(0, [])], [(0, [])]) := rfl

/-- C8 (amended): for every map containing a node with an empty upstream
sequence, the aggregation returns an empty unique-id list and an empty
coefficient list for that node, without dividing by zero and without
signalling any error. -/
theorem C8_amended_empty_entry {α : Type} [DecidableEq α]
    (m : List (Nat × List α)) (nd : Nat) (hmem : (nd, ([] : List α)) ∈ m) :
    (nd, ([] : List α)) ∈ (find_unique_upstream_hsd_ids_and_fractions m).1 ∧
    (nd, ([] : List ℚ)) ∈ (find_unique_upstream_hsd_ids_and_fractions m).2 := by
  constructor
  · exact List.mem_map.mpr ⟨(nd, []), hmem, rfl⟩
  · exact List.mem_map.mpr ⟨(nd, []), hmem, rfl⟩

/-- Witness for the amended C8. -/
theorem C8_witness :
    ((0, ([] : List Char)) ∈ [(0, ([] : List Char))]) ∧
    (0, ([] : List Char)) ∈
      (find_unique_upstream_hsd_ids_and_fractions [(0, ([] : List Char))]).1 :=
  ⟨by decide, (C8_amended_empty_entry [(0, ([] : List Char))] 0 (by simp)).1⟩

end SourceTracking
